import Mathlib

/-!
# Verification of the ipp.rs attribute/value codec and stream parser

Shallow embedding of the IPP binary attribute wire format implemented in
`ipp-proto/src/value.rs`, `ipp-proto/src/parser.rs` and `src/attribute.rs`.
Bytes are modelled as `Nat` (values kept below 256 by the writers where the
source truncates), byte streams as `List Nat`, fallible reads as `Option`,
and the parser as a fuel-indexed step function over an explicit state.

Rust `String` values are represented by their byte sequences (`List Nat`);
`String::from_utf8_lossy`, which the source applies when reading strings, is
the identity on the valid UTF-8 bytes every Rust `String` encodes to, so
`read_string` is modelled as reading the raw bytes.
-/

namespace IppSpec

/-! ## Byte-level primitives

`byteorder`'s big-endian writers and readers over a `List Nat` stream.
`w16`/`w32` truncate exactly as the `as u16` conversions in the source do.
-/

/-- Big-endian 16-bit write (`write_u16::<BigEndian>`), truncating to 16 bits. -/
def w16 (n : Nat) : List Nat := [n % 65536 / 256, n % 256]

/-- Big-endian 32-bit write (`write_u32::<BigEndian>`), truncating to 32 bits. -/
def w32 (n : Nat) : List Nat :=
  [n % 4294967296 / 16777216, n % 16777216 / 65536, n % 65536 / 256, n % 256]

/-- Big-endian `i32` write (`write_i32::<BigEndian>`): two's complement bytes. -/
def wi32 (i : Int) : List Nat := w32 (i % 4294967296).toNat

/-- `i8` write (`write_i8`): two's complement byte. -/
def wi8 (i : Int) : List Nat := [(i % 256).toNat]

/-- `read_u8`: one byte off the stream, i/o error on exhaustion. -/
def readU8 : List Nat → Option (Nat × List Nat)
  | [] => none
  | b :: r => some (b, r)

/-- `read_u16::<BigEndian>`. -/
def readU16 : List Nat → Option (Nat × List Nat)
  | b0 :: b1 :: r => some (b0 * 256 + b1, r)
  | _ => none

/-- `read_u32::<BigEndian>`. -/
def readU32 : List Nat → Option (Nat × List Nat)
  | b0 :: b1 :: b2 :: b3 :: r =>
    some (b0 * 16777216 + b1 * 65536 + b2 * 256 + b3, r)
  | _ => none

/-- Reinterpret a 32-bit unsigned value as an `i32` (two's complement). -/
def toI32 (n : Nat) : Int := if n < 2147483648 then (n : Int) else (n : Int) - 4294967296

/-- Reinterpret an 8-bit unsigned value as an `i8` (two's complement). -/
def toI8 (n : Nat) : Int := if n < 128 then (n : Int) else (n : Int) - 256

/-- `read_i32::<BigEndian>`. -/
def readI32 (s : List Nat) : Option (Int × List Nat) :=
  (readU32 s).map fun p => (toI32 p.1, p.2)

/-- `read_i8`. -/
def readI8 (s : List Nat) : Option (Int × List Nat) :=
  (readU8 s).map fun p => (toI8 p.1, p.2)

/-- `read_bytes(k)` / `read_string(k)`: exactly `k` bytes or an i/o error. -/
def readN (k : Nat) (s : List Nat) : Option (List Nat × List Nat) :=
  if k ≤ s.length then some (s.take k, s.drop k) else none

/-! ## Tag tables

Modelled from the spec: the tag-table module (`ipp-proto/src/ipp.rs`) is not
among the provided sources; only its callers are.  The spec fixes the
delimiter bytes (operation = 0x01, job = 0x02, end-of-attributes = 0x03,
printer = 0x04, unsupported = 0x05) and the collection sentinels
(BegCollection = 0x34, EndCollection = 0x37); the remaining value-tag bytes
are the standard IPP assignments, which the in-repo tests pin for
Integer (0x21) and Keyword (0x44).
-/

inductive ValueTag where
  | Unsupported | Unknown | NoValue
  | Integer | Boolean | Enum
  | OctetStringUnspecified | DateTime | Resolution | RangeOfInteger
  | BegCollection | TextWithLanguage | NameWithLanguage | EndCollection
  | TextWithoutLanguage | NameWithoutLanguage
  | Keyword | Uri | UriScheme | Charset | NaturalLanguage
  | MimeMediaType | MemberAttrName
deriving DecidableEq

/-- The byte value of a `ValueTag` (the enum discriminants of the source). -/
def tagByte : ValueTag → Nat
  | .Unsupported => 0x10
  | .Unknown => 0x12
  | .NoValue => 0x13
  | .Integer => 0x21
  | .Boolean => 0x22
  | .Enum => 0x23
  | .OctetStringUnspecified => 0x30
  | .DateTime => 0x31
  | .Resolution => 0x32
  | .RangeOfInteger => 0x33
  | .BegCollection => 0x34
  | .TextWithLanguage => 0x35
  | .NameWithLanguage => 0x36
  | .EndCollection => 0x37
  | .TextWithoutLanguage => 0x41
  | .NameWithoutLanguage => 0x42
  | .Keyword => 0x44
  | .Uri => 0x45
  | .UriScheme => 0x46
  | .Charset => 0x47
  | .NaturalLanguage => 0x48
  | .MimeMediaType => 0x49
  | .MemberAttrName => 0x4a

/-- `ValueTag::from_u8`: the partial inverse of `tagByte`. -/
def fromU8 (b : Nat) : Option ValueTag :=
  if b = 0x10 then some .Unsupported
  else if b = 0x12 then some .Unknown
  else if b = 0x13 then some .NoValue
  else if b = 0x21 then some .Integer
  else if b = 0x22 then some .Boolean
  else if b = 0x23 then some .Enum
  else if b = 0x30 then some .OctetStringUnspecified
  else if b = 0x31 then some .DateTime
  else if b = 0x32 then some .Resolution
  else if b = 0x33 then some .RangeOfInteger
  else if b = 0x34 then some .BegCollection
  else if b = 0x35 then some .TextWithLanguage
  else if b = 0x36 then some .NameWithLanguage
  else if b = 0x37 then some .EndCollection
  else if b = 0x41 then some .TextWithoutLanguage
  else if b = 0x42 then some .NameWithoutLanguage
  else if b = 0x44 then some .Keyword
  else if b = 0x45 then some .Uri
  else if b = 0x46 then some .UriScheme
  else if b = 0x47 then some .Charset
  else if b = 0x48 then some .NaturalLanguage
  else if b = 0x49 then some .MimeMediaType
  else if b = 0x4a then some .MemberAttrName
  else none

/-! ## The value type (`IppValue`, `ipp-proto/src/value.rs`) -/

/-- `IppValue`: the tagged-union value type.  `String` fields are byte lists,
`i32`/`i8` fields are `Int`, `u8`/`u16`/`char` fields are `Nat`. -/
inductive IppValue where
  | Integer (i : Int)
  | Enum (i : Int)
  | OctetString (s : List Nat)
  | TextWithoutLanguage (s : List Nat)
  | NameWithoutLanguage (s : List Nat)
  | Charset (s : List Nat)
  | NaturalLanguage (s : List Nat)
  | Uri (s : List Nat)
  | RangeOfInteger (min max : Int)
  | Boolean (b : Bool)
  | Keyword (s : List Nat)
  | ListOf (l : List IppValue)
  | Collection (l : List IppValue)
  | MimeMediaType (s : List Nat)
  | DateTime (year month day hour minutes seconds deciseconds utcdir utchours utcmins : Nat)
  | MemberAttrName (s : List Nat)
  | Resolution (crossfeed feed : Int) (units : Int)
  | Other (tag : Nat) (data : List Nat)

namespace IppValue

/-- `IppValue::to_tag`.  On an empty `ListOf` the source indexes `list[0]` and
panics; that case is unreachable for constructible values (the spec's
invariant: a `ListOf` is never empty) and is given the `Unknown` default. -/
def toTag : IppValue → ValueTag
  | .Integer _ => .Integer
  | .Enum _ => .Enum
  | .RangeOfInteger _ _ => .RangeOfInteger
  | .Boolean _ => .Boolean
  | .Keyword _ => .Keyword
  | .OctetString _ => .OctetStringUnspecified
  | .TextWithoutLanguage _ => .TextWithoutLanguage
  | .NameWithoutLanguage _ => .NameWithoutLanguage
  | .Charset _ => .Charset
  | .NaturalLanguage _ => .NaturalLanguage
  | .Uri _ => .Uri
  | .MimeMediaType _ => .MimeMediaType
  | .ListOf l =>
    match l with
    | x :: _ => toTag x
    | [] => .Unknown
  | .Collection _ => .BegCollection
  | .DateTime _ _ _ _ _ _ _ _ _ _ => .DateTime
  | .MemberAttrName _ => .MemberAttrName
  | .Resolution _ _ _ => .Resolution
  | .Other _ _ => .Unknown

/-- The byte the source emits for this value's tag (`to_tag() as u8`). -/
def toTagB (v : IppValue) : Nat := tagByte v.toTag

/-- `IppValue::read(vtag, reader)`: value decode.  `none` is an i/o error. -/
def read (vtag : Nat) (s : List Nat) : Option (IppValue × List Nat) :=
  match readU16 s with
  | none => none
  | some (vsize, s) =>
    match fromU8 vtag with
    | none => (readN vsize s).map fun p => (.Other vtag p.1, p.2)
    | some t =>
      match t with
      | .Integer => (readI32 s).map fun p => (.Integer p.1, p.2)
      | .Enum => (readI32 s).map fun p => (.Enum p.1, p.2)
      | .OctetStringUnspecified => (readN vsize s).map fun p => (.OctetString p.1, p.2)
      | .TextWithoutLanguage => (readN vsize s).map fun p => (.TextWithoutLanguage p.1, p.2)
      | .NameWithoutLanguage => (readN vsize s).map fun p => (.NameWithoutLanguage p.1, p.2)
      | .Charset => (readN vsize s).map fun p => (.Charset p.1, p.2)
      | .NaturalLanguage => (readN vsize s).map fun p => (.NaturalLanguage p.1, p.2)
      | .Uri => (readN vsize s).map fun p => (.Uri p.1, p.2)
      | .RangeOfInteger =>
        match readI32 s with
        | none => none
        | some (mn, s) =>
          match readI32 s with
          | none => none
          | some (mx, s) => some (.RangeOfInteger mn mx, s)
      | .Boolean => (readU8 s).map fun p => (.Boolean (p.1 != 0), p.2)
      | .Keyword => (readN vsize s).map fun p => (.Keyword p.1, p.2)
      | .MimeMediaType => (readN vsize s).map fun p => (.MimeMediaType p.1, p.2)
      | .DateTime =>
        match readU16 s with
        | none => none
        | some (y, s) =>
          match readU8 s with
          | none => none
          | some (mo, s) =>
            match readU8 s with
            | none => none
            | some (d, s) =>
              match readU8 s with
              | none => none
              | some (h, s) =>
                match readU8 s with
                | none => none
                | some (mi, s) =>
                  match readU8 s with
                  | none => none
                  | some (se, s) =>
                    match readU8 s with
                    | none => none
                    | some (de, s) =>
                      match readU8 s with
                      | none => none
                      | some (ud, s) =>
                        match readU8 s with
                        | none => none
                        | some (uh, s) =>
                          match readU8 s with
                          | none => none
                          | some (um, s) =>
                            some (.DateTime y mo d h mi se de ud uh um, s)
      | .MemberAttrName => (readN vsize s).map fun p => (.MemberAttrName p.1, p.2)
      | .Resolution =>
        match readI32 s with
        | none => none
        | some (cf, s) =>
          match readI32 s with
          | none => none
          | some (f, s) =>
            match readI8 s with
            | none => none
            | some (u, s) => some (.Resolution cf f u, s)
      | _ => (readN vsize s).map fun p => (.Other vtag p.1, p.2)

end IppValue

/-! ## Value encode (`IppValue::write`)

The writer cannot fail against an in-memory sink, so `write` is total and
returns the bytes that reach the writer together with the `usize` byte count
the source returns (`Ok(n)`) — the two are compared in claim C2.
-/

mutual

/-- `IppValue::write`: bytes written, and the count the source returns. -/
def valWrite : IppValue → List Nat × Nat
  | .Integer i => (w16 4 ++ wi32 i, 6)
  | .Enum i => (w16 4 ++ wi32 i, 6)
  | .RangeOfInteger mn mx => (w16 8 ++ wi32 mn ++ wi32 mx, 10)
  | .Boolean b => (w16 1 ++ [if b then 1 else 0], 3)
  | .Keyword s => (w16 s.length ++ s, 2 + s.length)
  | .OctetString s => (w16 s.length ++ s, 2 + s.length)
  | .TextWithoutLanguage s => (w16 s.length ++ s, 2 + s.length)
  | .NameWithoutLanguage s => (w16 s.length ++ s, 2 + s.length)
  | .Charset s => (w16 s.length ++ s, 2 + s.length)
  | .NaturalLanguage s => (w16 s.length ++ s, 2 + s.length)
  | .Uri s => (w16 s.length ++ s, 2 + s.length)
  | .MimeMediaType s => (w16 s.length ++ s, 2 + s.length)
  | .MemberAttrName s => (w16 s.length ++ s, 2 + s.length)
  | .ListOf l => listOfW (IppValue.toTagB (.ListOf l)) l
  | .Collection l =>
    let b := collW l
    (w16 0 ++ b.1 ++ [0x37] ++ w32 0, 2 + b.2 + 5)
  | .DateTime y mo d h mi se de ud uh um =>
    (w16 11 ++ w16 y ++ [mo, d, h, mi, se, de, ud % 256, uh, um], 13)
  | .Resolution cf f u => (w16 9 ++ wi32 cf ++ wi32 f ++ wi8 u, 9)
  | .Other _ data => (w16 data.length ++ data, 2 + data.length)

/-- The `ListOf` loop: each item, with a repeated tag byte and a zero name
length between consecutive items.  The separator tag is `self.to_tag()`,
i.e. the tag of the *first* element, for every separator. -/
def listOfW (tb : Nat) : List IppValue → List Nat × Nat
  | [] => ([], 0)
  | [x] => valWrite x
  | x :: y :: rest =>
    let wx := valWrite x
    let wr := listOfW tb (y :: rest)
    (wx.1 ++ [tb] ++ w16 0 ++ wr.1, wx.2 + 3 + wr.2)

/-- The `Collection` item loop: each child's tag byte, a zero name length,
then the child's encoding. -/
def collW : List IppValue → List Nat × Nat
  | [] => ([], 0)
  | x :: rest =>
    let wx := valWrite x
    let wr := collW rest
    (IppValue.toTagB x :: (w16 0 ++ wx.1 ++ wr.1), 3 + wx.2 + wr.2)

end

/-- `IppAttribute::write` (`src/attribute.rs`): the value's tag byte, the
big-endian name length, the name bytes, then the encoded value. -/
def attrW (name : List Nat) (v : IppValue) : List Nat × Nat :=
  (v.toTagB :: (w16 name.length ++ name ++ (valWrite v).1),
   1 + 2 + name.length + (valWrite v).2)

/-- Is this value a `ListOf`? -/
def isList : IppValue → Bool
  | .ListOf _ => true
  | _ => false

/-- Is this value a `Collection`? -/
def isColl : IppValue → Bool
  | .Collection _ => true
  | _ => false

/-! ## Round-trippable values

`wfValue` is the class of values for which the attribute round trip can hold
at all: field values within their Rust integer-type ranges, wire payloads
below the 16-bit length field, a `ListOf` with at least two elements that
all carry the tag of the first (the separator entries repeat the first
element's tag) and are not themselves lists (a nested list is flattened by
the parser), `Collection` children that are not lists, and `Other` carrying
the `Unknown` tag byte `0x12` that `to_tag` emits for it. -/

mutual

def wfValue : IppValue → Bool
  | .Integer i => decide (-2147483648 ≤ i ∧ i < 2147483648)
  | .Enum i => decide (-2147483648 ≤ i ∧ i < 2147483648)
  | .RangeOfInteger mn mx =>
    decide (-2147483648 ≤ mn ∧ mn < 2147483648 ∧ -2147483648 ≤ mx ∧ mx < 2147483648)
  | .Boolean _ => true
  | .Keyword s => decide (s.length < 65536)
  | .OctetString s => decide (s.length < 65536)
  | .TextWithoutLanguage s => decide (s.length < 65536)
  | .NameWithoutLanguage s => decide (s.length < 65536)
  | .Charset s => decide (s.length < 65536)
  | .NaturalLanguage s => decide (s.length < 65536)
  | .Uri s => decide (s.length < 65536)
  | .MimeMediaType s => decide (s.length < 65536)
  | .MemberAttrName s => decide (s.length < 65536)
  | .ListOf l =>
    match l with
    | x :: y :: rest => wfElems (IppValue.toTagB x) (x :: y :: rest)
    | _ => false
  | .Collection l => wfKids l
  | .DateTime y mo d h mi se de ud uh um =>
    decide (y < 65536 ∧ mo < 256 ∧ d < 256 ∧ h < 256 ∧ mi < 256 ∧ se < 256 ∧
      de < 256 ∧ ud < 256 ∧ uh < 256 ∧ um < 256)
  | .Resolution cf f u =>
    decide (-2147483648 ≤ cf ∧ cf < 2147483648 ∧ -2147483648 ≤ f ∧ f < 2147483648 ∧
      -128 ≤ u ∧ u < 128)
  | .Other tag data => decide (tag = 0x12 ∧ data.length < 65536)

def wfElems (tb : Nat) : List IppValue → Bool
  | [] => true
  | c :: rest =>
    wfValue c && !isList c && decide (IppValue.toTagB c = tb) && wfElems tb rest

def wfKids : List IppValue → Bool
  | [] => true
  | c :: rest => wfValue c && !isList c && wfKids rest

end

/-! ## Stream parser (`ipp-proto/src/parser.rs`) -/

inductive ParseError where
  | InvalidTag (b : Nat)
  | InvalidVersion
  | InvalidCollection
  | IOError
deriving DecidableEq

/-- Modelled from the spec: the `IppAttributes` store that the parser
populates lives in a module of `ipp-proto` that is not among the provided
sources.  Per the spec it maps a delimiter group to an ordered name →
attribute mapping in which a later `add` with the same name replaces the
earlier one. -/
structure IppAttributes where
  groups : List (Nat × List (List Nat × IppValue))

/-- Insert-or-replace by name, preserving insertion order. -/
def attrInsert (l : List (List Nat × IppValue)) (n : List Nat) (v : IppValue) :
    List (List Nat × IppValue) :=
  match l with
  | [] => [(n, v)]
  | (m, w) :: rest => if m = n then (n, v) :: rest else (m, w) :: attrInsert rest n v

/-- The group-level insert behind `IppAttributes::add`. -/
def groupInsert (g : Nat) (n : List Nat) (v : IppValue) :
    List (Nat × List (List Nat × IppValue)) → List (Nat × List (List Nat × IppValue))
  | [] => [(g, [(n, v)])]
  | (g', attrs) :: rest =>
    if g' = g then (g', attrInsert attrs n v) :: rest
    else (g', attrs) :: groupInsert g n v rest

/-- `IppAttributes::add`. -/
def IppAttributes.add (a : IppAttributes) (g : Nat) (n : List Nat) (v : IppValue) :
    IppAttributes :=
  ⟨groupInsert g n v a.groups⟩

/-- Look up an attribute's value by group and name. -/
def IppAttributes.get (a : IppAttributes) (g : Nat) (n : List Nat) : Option IppValue :=
  match a.groups.lookup g with
  | none => none
  | some attrs => attrs.lookup n

/-- `list_or_value`: a one-element list collapses to its element. -/
def listOrValue : List IppValue → IppValue
  | [x] => x
  | l => .ListOf l

/-- The parser state: active delimiter group, pending attribute name, the
stack of value-accumulation frames (head of the list is the top of the
stack, i.e. the end of the source's `Vec`), and the growing store. -/
structure PState where
  lastDelimiter : Nat
  lastName : Option (List Nat)
  context : List (List IppValue)
  attributes : IppAttributes

/-- `IppParser::add_last_attribute`: if a name is pending, pop the top frame,
collapse it with `list_or_value`, add the attribute under the remembered
group, and push a fresh empty frame.  The pending name is not cleared. -/
def addLastAttribute (s : PState) : PState :=
  match s.lastName with
  | none => s
  | some n =>
    match s.context with
    | [] => { s with context := [[]] }
    | top :: rest =>
      { s with
        attributes := s.attributes.add s.lastDelimiter n (listOrValue top)
        context := [] :: rest }

/-- `DelimiterTag::from_u8`. -/
def delimFromU8 (b : Nat) : Option Nat :=
  if b = 1 ∨ b = 2 ∨ b = 3 ∨ b = 4 ∨ b = 5 then some b else none

/-- `IppParser::parse_delimiter`: `true` means stop successfully. -/
def parseDelimiter (tag : Nat) (s : PState) : Except ParseError (Bool × PState) :=
  if tag = 3 then .ok (true, addLastAttribute s)
  else
    match delimFromU8 tag with
    | some d => .ok (false, { s with lastDelimiter := d })
    | none => .error (.InvalidTag tag)

/-- `IppParser::parse_value`: read the name length, the name, and the value;
a non-empty name flushes the pending attribute and becomes pending itself;
`BegCollection` pushes a frame, `EndCollection` pops one (a non-empty marker
payload is `InvalidCollection`; a pop below the bottom is silently ignored),
anything else is appended to the top frame. -/
def parseValue (tag : Nat) (s : PState) (inp : List Nat) :
    Except ParseError (PState × List Nat) :=
  match readU16 inp with
  | none => .error .IOError
  | some (namelen, r1) =>
    match readN namelen r1 with
    | none => .error .IOError
    | some (name, r2) =>
      match IppValue.read tag r2 with
      | none => .error .IOError
      | some (value, r3) =>
        let s := if 0 < namelen then { addLastAttribute s with lastName := some name } else s
        if tag = 0x34 then
          match value with
          | .Other _ [] => .ok ({ s with context := [] :: s.context }, r3)
          | _ => .error .InvalidCollection
        else if tag = 0x37 then
          match value with
          | .Other _ [] =>
            match s.context with
            | [] => .ok (s, r3)
            | arr :: rest =>
              match rest with
              | [] => .ok ({ s with context := [] }, r3)
              | top :: rest2 =>
                .ok ({ s with context := (top ++ [.Collection arr]) :: rest2 }, r3)
          | _ => .error .InvalidCollection
        else
          match s.context with
          | [] => .ok (s, r3)
          | top :: rest => .ok ({ s with context := (top ++ [value]) :: rest }, r3)

/-- The parse loop of `IppParser::parse`, indexed by fuel (`none` = fuel ran
out; one unit of fuel is spent per loop iteration, and every iteration
consumes at least the tag byte, so fuel `length + 1` never runs out). -/
def parseLoopF : Nat → PState → List Nat → Option (Except ParseError PState)
  | 0, _, _ => none
  | _ + 1, _, [] => some (.error .IOError)
  | fuel + 1, s, b :: rest =>
    if 1 ≤ b ∧ b ≤ 5 then
      match parseDelimiter b s with
      | .ok (true, s') => some (.ok s')
      | .ok (false, s') => parseLoopF fuel s' rest
      | .error e => some (.error e)
    else if 0x10 ≤ b ∧ b ≤ 0x4a then
      match parseValue b s rest with
      | .ok (s', rest') => parseLoopF fuel s' rest'
      | .error e => some (.error e)
    else
      some (.error (.InvalidTag b))

/-- The message header. -/
structure IppHeader where
  version : Nat
  operationStatus : Nat
  requestId : Nat
deriving DecidableEq

/-- Modelled from the spec: the header decoder (`IppHeader::from_reader`,
source not provided) reads the two version bytes as a big-endian `u16` and
fails with `InvalidVersion` when it is not a supported IPP version, then the
16-bit operation/status field and the 32-bit request id. -/
def readHeader (inp : List Nat) : Except ParseError (IppHeader × List Nat) :=
  match readU16 inp with
  | none => .error .IOError
  | some (ver, r1) =>
    if ver = 0x0100 ∨ ver = 0x0101 ∨ ver = 0x0200 ∨ ver = 0x0201 ∨ ver = 0x0202 then
      match readU16 r1 with
      | none => .error .IOError
      | some (op, r2) =>
        match readU32 r2 with
        | none => .error .IOError
        | some (rid, r3) => .ok (⟨ver, op, rid⟩, r3)
    else .error .InvalidVersion

/-- The initial parser state (`IppParser::new`). -/
def initPState : PState := ⟨3, none, [[]], ⟨[]⟩⟩

/-- `IppParser::parse`: decode the header, then drive the loop.  The fuel
`length + 1` cannot run out (each iteration consumes at least one byte); the
`none` fallback is dead code. -/
def parse (inp : List Nat) : Except ParseError (IppHeader × IppAttributes) :=
  match readHeader inp with
  | .error e => .error e
  | .ok (hdr, body) =>
    match parseLoopF (body.length + 1) initPState body with
    | some (.ok s) => .ok (hdr, s.attributes)
    | some (.error e) => .error e
    | none => .error .IOError

/-! ## Attribute store and serializer (`src/attribute.rs`)

The store is a `BTreeMap<u8, BTreeMap<String, IppAttribute>>`; both maps are
modelled as association lists (the write-path claims proved here do not
depend on the maps' key ordering). -/

inductive IppError where
  | RequestError
deriving DecidableEq

/-- The three mandated operation header attributes, in the serializer's fixed
order.  Modelled from the spec: the name constants live in a `consts` module
that is not among the provided sources; the spec names them charset, natural
language and target URI. -/
def hdrCharset : List Nat := [97, 116, 116, 114, 105, 98, 117, 116, 101, 115, 45,
  99, 104, 97, 114, 115, 101, 116]

def hdrNaturalLanguage : List Nat := [97, 116, 116, 114, 105, 98, 117, 116, 101,
  115, 45, 110, 97, 116, 117, 114, 97, 108, 45, 108, 97, 110, 103, 117, 97, 103, 101]

def hdrPrinterUri : List Nat := [112, 114, 105, 110, 116, 101, 114, 45, 117, 114, 105]

/-- `HEADER_ATTRS`. -/
def hdrAttrs : List (List Nat) := [hdrCharset, hdrNaturalLanguage, hdrPrinterUri]

/-- `is_header_attr`. -/
def isHeaderAttr (n : List Nat) : Bool := n ∈ hdrAttrs

/-- `IppAttributeList`: group byte → (name → attribute). -/
structure IppAttributeList where
  attributes : List (Nat × List (List Nat × IppValue))

/-- Update-or-create an association-list entry. -/
def updateAssoc (l : List (Nat × List (List Nat × IppValue))) (k : Nat)
    (f : List (List Nat × IppValue) → List (List Nat × IppValue))
    (d : List (List Nat × IppValue)) : List (Nat × List (List Nat × IppValue)) :=
  match l with
  | [] => [(k, d)]
  | (k', x) :: r => if k' = k then (k', f x) :: r else (k', x) :: updateAssoc r k f d

/-- `IppAttributeList::add`: create the group on demand, then insert/replace
the attribute by name. -/
def IppAttributeList.add (st : IppAttributeList) (group : Nat) (name : List Nat)
    (v : IppValue) : IppAttributeList :=
  ⟨updateAssoc st.attributes group (fun attrs => attrInsert attrs name v) [(name, v)]⟩

/-- `IppAttributeList::get_group`. -/
def IppAttributeList.getGroup (st : IppAttributeList) (group : Nat) :
    Option (List (List Nat × IppValue)) :=
  st.attributes.lookup group

/-- `IppAttributeList::get`. -/
def IppAttributeList.get (st : IppAttributeList) (group : Nat) (name : List Nat) :
    Option IppValue :=
  match st.getGroup group with
  | some attrs => attrs.lookup name
  | none => none

/-- The header-attribute loop of `IppAttributeList::write`: writes each of
the three mandated attributes in order; `.inr bytes` reports the bytes that
reached the writer before a missing attribute aborted the loop. -/
def writeHdrs (st : IppAttributeList) : List (List Nat) → (List Nat × Nat) ⊕ List Nat
  | [] => .inl ([], 0)
  | h :: rest =>
    match st.get 1 h with
    | none => .inr []
    | some v =>
      let aw := attrW h v
      match writeHdrs st rest with
      | .inl (b, c) => .inl (aw.1 ++ b, aw.2 + c)
      | .inr b => .inr (aw.1 ++ b)

/-- One group's attribute loop: header attributes are filtered out of the
operation group (they were already written). -/
def writeGroupAttrs (g : Nat) : List (List Nat × IppValue) → List Nat × Nat
  | [] => ([], 0)
  | (n, v) :: rest =>
    let r := writeGroupAttrs g rest
    if g ≠ 1 ∨ ¬ isHeaderAttr n then ((attrW n v).1 ++ r.1, (attrW n v).2 + r.2) else r

/-- The group loop of `IppAttributeList::write` over the operation, job and
printer groups; a missing group is skipped, a present non-operation group is
preceded by its delimiter byte. -/
def writeGroups (st : IppAttributeList) : List Nat → List Nat × Nat
  | [] => ([], 0)
  | g :: gs =>
    let rest := writeGroups st gs
    match st.getGroup g with
    | none => rest
    | some attrs =>
      let ga := writeGroupAttrs g attrs
      let cur := if g ≠ 1 then (g :: ga.1, 1 + ga.2) else ga
      (cur.1 ++ rest.1, cur.2 + rest.2)

/-- `IppAttributeList::write`: the operation group tag byte first, then the
three mandated header attributes (failing with `RequestError` on a missing
one — after the group tag byte is already out), the groups, and the
end-of-attributes byte.  Returns the bytes that reached the writer together
with the result. -/
def IppAttributeList.write (st : IppAttributeList) : List Nat × Except IppError Nat :=
  match writeHdrs st hdrAttrs with
  | .inr pb => (1 :: pb, .error .RequestError)
  | .inl (hb, hc) =>
    let g := writeGroups st [1, 2, 4]
    (1 :: (hb ++ g.1 ++ [3]), .ok (1 + hc + g.2 + 1))

/-! ## Reader/writer inverse lemmas -/

theorem readU16_w16 (n : Nat) (r : List Nat) :
    readU16 (w16 n ++ r) = some (n % 65536, r) := by
  simp only [w16, List.cons_append, List.nil_append, readU16]
  have h : n % 65536 / 256 * 256 + n % 256 = n % 65536 := by omega
  rw [h]

theorem readU16_w16_lt {n : Nat} (h : n < 65536) (r : List Nat) :
    readU16 (w16 n ++ r) = some (n, r) := by
  rw [readU16_w16, Nat.mod_eq_of_lt h]

theorem readU32_w32 (n : Nat) (r : List Nat) :
    readU32 (w32 n ++ r) = some (n % 4294967296, r) := by
  simp only [w32, List.cons_append, List.nil_append, readU32]
  have h : n % 4294967296 / 16777216 * 16777216 + n % 16777216 / 65536 * 65536 +
      n % 65536 / 256 * 256 + n % 256 = n % 4294967296 := by omega
  rw [h]

theorem readI32_wi32 {i : Int} (h1 : -2147483648 ≤ i) (h2 : i < 2147483648)
    (r : List Nat) : readI32 (wi32 i ++ r) = some (i, r) := by
  simp only [wi32, readI32, readU32_w32, Option.map_some']
  have hnn : (0 : Int) ≤ i % 4294967296 := Int.emod_nonneg i (by norm_num)
  have hlt : i % 4294967296 < 4294967296 := Int.emod_lt_of_pos i (by norm_num)
  have hm : (i % 4294967296).toNat % 4294967296 = (i % 4294967296).toNat := by omega
  rw [hm]
  have hv : toI32 (i % 4294967296).toNat = i := by
    unfold toI32
    split <;> omega
  rw [hv]

theorem readI8_wi8 {i : Int} (h1 : -128 ≤ i) (h2 : i < 128) (r : List Nat) :
    readI8 (wi8 i ++ r) = some (i, r) := by
  simp only [wi8, List.cons_append, List.nil_append, readI8, readU8, Option.map_some']
  have hnn : (0 : Int) ≤ i % 256 := Int.emod_nonneg i (by norm_num)
  have hlt : i % 256 < 256 := Int.emod_lt_of_pos i (by norm_num)
  have hv : toI8 (i % 256).toNat = i := by
    unfold toI8
    split <;> omega
  rw [hv]

theorem readN_exact (l r : List Nat) : readN l.length (l ++ r) = some (l, r) := by
  simp [readN, List.take_left, List.drop_left]

theorem readN_zero (s : List Nat) : readN 0 s = some ([], s) := by
  simp [readN]

theorem readN_le {k : Nat} {s out rest : List Nat} (h : readN k s = some (out, rest)) :
    rest.length ≤ s.length := by
  simp only [readN] at h
  split at h
  · cases h; simp [List.length_drop]
  · cases h

/-! ## Tag-table facts -/

theorem fromU8_tagByte (t : ValueTag) : fromU8 (tagByte t) = some t := by
  cases t <;> rfl

theorem tagByte_ge (t : ValueTag) : 0x10 ≤ tagByte t := by
  cases t <;> simp [tagByte]

theorem tagByte_le (t : ValueTag) : tagByte t ≤ 0x4a := by
  cases t <;> simp [tagByte]

/-! ## Scalar value round trip -/

/-- A wellformed scalar (neither `ListOf` nor `Collection`) read back from
its own encoding under its own tag byte yields itself. -/
theorem read_valWrite_scalar (c : IppValue) (hwf : wfValue c = true)
    (hl : isList c = false) (hc : isColl c = false) (r : List Nat) :
    IppValue.read c.toTagB ((valWrite c).1 ++ r) = some (c, r) := by
  cases c with
  | ListOf l => simp [isList] at hl
  | Collection l => simp [isColl] at hc
  | Integer i =>
    simp only [wfValue, decide_eq_true_eq] at hwf
    simp [IppValue.read, valWrite, IppValue.toTagB, IppValue.toTag, tagByte, fromU8,
      readU16_w16_lt, readI32_wi32 hwf.1 hwf.2]
  | Enum i =>
    simp only [wfValue, decide_eq_true_eq] at hwf
    simp [IppValue.read, valWrite, IppValue.toTagB, IppValue.toTag, tagByte, fromU8,
      readU16_w16_lt, readI32_wi32 hwf.1 hwf.2]
  | RangeOfInteger mn mx =>
    simp only [wfValue, decide_eq_true_eq] at hwf
    obtain ⟨h1, h2, h3, h4⟩ := hwf
    simp [IppValue.read, valWrite, IppValue.toTagB, IppValue.toTag, tagByte, fromU8,
      readU16_w16_lt, readI32_wi32 h1 h2, readI32_wi32 h3 h4]
  | Boolean b =>
    cases b <;>
      simp [IppValue.read, valWrite, IppValue.toTagB, IppValue.toTag, tagByte, fromU8,
        readU16_w16_lt, readU8]
  | Keyword s =>
    simp only [wfValue, decide_eq_true_eq] at hwf
    simp [IppValue.read, valWrite, IppValue.toTagB, IppValue.toTag, tagByte, fromU8,
      readU16_w16_lt hwf, readN_exact]
  | OctetString s =>
    simp only [wfValue, decide_eq_true_eq] at hwf
    simp [IppValue.read, valWrite, IppValue.toTagB, IppValue.toTag, tagByte, fromU8,
      readU16_w16_lt hwf, readN_exact]
  | TextWithoutLanguage s =>
    simp only [wfValue, decide_eq_true_eq] at hwf
    simp [IppValue.read, valWrite, IppValue.toTagB, IppValue.toTag, tagByte, fromU8,
      readU16_w16_lt hwf, readN_exact]
  | NameWithoutLanguage s =>
    simp only [wfValue, decide_eq_true_eq] at hwf
    simp [IppValue.read, valWrite, IppValue.toTagB, IppValue.toTag, tagByte, fromU8,
      readU16_w16_lt hwf, readN_exact]
  | Charset s =>
    simp only [wfValue, decide_eq_true_eq] at hwf
    simp [IppValue.read, valWrite, IppValue.toTagB, IppValue.toTag, tagByte, fromU8,
      readU16_w16_lt hwf, readN_exact]
  | NaturalLanguage s =>
    simp only [wfValue, decide_eq_true_eq] at hwf
    simp [IppValue.read, valWrite, IppValue.toTagB, IppValue.toTag, tagByte, fromU8,
      readU16_w16_lt hwf, readN_exact]
  | Uri s =>
    simp only [wfValue, decide_eq_true_eq] at hwf
    simp [IppValue.read, valWrite, IppValue.toTagB, IppValue.toTag, tagByte, fromU8,
      readU16_w16_lt hwf, readN_exact]
  | MimeMediaType s =>
    simp only [wfValue, decide_eq_true_eq] at hwf
    simp [IppValue.read, valWrite, IppValue.toTagB, IppValue.toTag, tagByte, fromU8,
      readU16_w16_lt hwf, readN_exact]
  | MemberAttrName s =>
    simp only [wfValue, decide_eq_true_eq] at hwf
    simp [IppValue.read, valWrite, IppValue.toTagB, IppValue.toTag, tagByte, fromU8,
      readU16_w16_lt hwf, readN_exact]
  | DateTime y mo d h mi se de ud uh um =>
    simp only [wfValue, decide_eq_true_eq] at hwf
    obtain ⟨hy, hmo, hd, hh, hmi, hse, hde, hud, huh, hum⟩ := hwf
    simp [IppValue.read, valWrite, IppValue.toTagB, IppValue.toTag, tagByte, fromU8,
      readU16_w16_lt, readU16_w16_lt hy, readU8, Nat.mod_eq_of_lt hud]
  | Resolution cf f u =>
    simp only [wfValue, decide_eq_true_eq] at hwf
    obtain ⟨h1, h2, h3, h4, h5, h6⟩ := hwf
    simp [IppValue.read, valWrite, IppValue.toTagB, IppValue.toTag, tagByte, fromU8,
      readU16_w16_lt, readI32_wi32 h1 h2, readI32_wi32 h3 h4, readI8_wi8 h5 h6]
  | Other tag data =>
    simp only [wfValue, decide_eq_true_eq] at hwf
    obtain ⟨ht, hlen⟩ := hwf
    subst ht
    simp [IppValue.read, valWrite, IppValue.toTagB, IppValue.toTag, tagByte, fromU8,
      readU16_w16_lt hlen, readN_exact]

end IppSpec

namespace IppSpec

/-! ## Scalar tag facts -/

theorem scalar_tag_ne34 (c : IppValue) (hl : isList c = false) (hc : isColl c = false) :
    c.toTagB ≠ 0x34 := by
  cases c <;> simp_all [IppValue.toTagB, IppValue.toTag, tagByte, isList, isColl]

theorem tag_ne37 (c : IppValue) (hl : isList c = false) : c.toTagB ≠ 0x37 := by
  cases c <;> simp_all [IppValue.toTagB, IppValue.toTag, tagByte, isList]

theorem toTagB_ge (c : IppValue) : 0x10 ≤ c.toTagB := tagByte_ge _

theorem toTagB_le (c : IppValue) : c.toTagB ≤ 0x4a := tagByte_le _

/-! ## Collection marker reads -/

theorem read_beg (r : List Nat) :
    IppValue.read 0x34 (w16 0 ++ r) = some (.Other 0x34 [], r) := by
  simp [IppValue.read, readU16_w16_lt, fromU8, readN_zero]

theorem read_end (r : List Nat) :
    IppValue.read 0x37 (w16 0 ++ r) = some (.Other 0x37 [], r) := by
  simp [IppValue.read, readU16_w16_lt, fromU8, readN_zero]

/-! ## parse_value on encoded entries -/

/-- An empty-name scalar entry appends the value to the top frame and
changes nothing else. -/
theorem parseValue_scalar0 (c : IppValue) (hwf : wfValue c = true)
    (hl : isList c = false) (hc : isColl c = false)
    (ld : Nat) (ln : Option (List Nat)) (A : IppAttributes)
    (F : List IppValue) (R : List (List IppValue)) (rest : List Nat) :
    parseValue c.toTagB ⟨ld, ln, F :: R, A⟩ (w16 0 ++ ((valWrite c).1 ++ rest)) =
      .ok (⟨ld, ln, (F ++ [c]) :: R, A⟩, rest) := by
  simp only [parseValue, readU16_w16_lt (by norm_num : (0 : Nat) < 65536), readN_zero,
    read_valWrite_scalar c hwf hl hc]
  simp [scalar_tag_ne34 c hl hc, tag_ne37 c hl]

/-- An empty-name `BegCollection` marker entry pushes a fresh frame. -/
theorem parseValue_beg (ld : Nat) (ln : Option (List Nat)) (A : IppAttributes)
    (ctx : List (List IppValue)) (r : List Nat) :
    parseValue 0x34 ⟨ld, ln, ctx, A⟩ (w16 0 ++ (w16 0 ++ r)) =
      .ok (⟨ld, ln, [] :: ctx, A⟩, r) := by
  simp only [parseValue, readU16_w16_lt (by norm_num : (0 : Nat) < 65536), readN_zero,
    read_beg]
  simp

/-- An empty-name `EndCollection` marker entry pops the top frame and pushes
it as a `Collection` onto the frame below. -/
theorem parseValue_end (ld : Nat) (ln : Option (List Nat)) (A : IppAttributes)
    (arr top : List IppValue) (R : List (List IppValue)) (r : List Nat) :
    parseValue 0x37 ⟨ld, ln, arr :: top :: R, A⟩ (w32 0 ++ r) =
      .ok (⟨ld, ln, (top ++ [.Collection arr]) :: R, A⟩, r) := by
  have h : w32 0 ++ r = w16 0 ++ (w16 0 ++ r) := by simp [w32, w16]
  rw [h]
  simp only [parseValue, readU16_w16_lt (by norm_num : (0 : Nat) < 65536), readN_zero,
    read_end]
  simp

/-! ## parse-loop step lemmas -/

theorem parseLoopF_value_ok {b : Nat} (h1 : 0x10 ≤ b) (h2 : b ≤ 0x4a)
    {s s' : PState} {inp rest' : List Nat} (fuel : Nat)
    (h : parseValue b s inp = .ok (s', rest')) :
    parseLoopF (fuel + 1) s (b :: inp) = parseLoopF fuel s' rest' := by
  simp only [parseLoopF]
  rw [if_neg (by omega), if_pos (by omega), h]

theorem parseLoopF_value_err {b : Nat} (h1 : 0x10 ≤ b) (h2 : b ≤ 0x4a)
    {s : PState} {inp : List Nat} {e : ParseError} (fuel : Nat)
    (h : parseValue b s inp = .error e) :
    parseLoopF (fuel + 1) s (b :: inp) = some (.error e) := by
  simp only [parseLoopF]
  rw [if_neg (by omega), if_pos (by omega), h]

theorem parseLoopF_delim_cont {b : Nat} (h1 : 1 ≤ b) (h2 : b ≤ 5) (h3 : b ≠ 3)
    (s : PState) (inp : List Nat) (fuel : Nat) :
    parseLoopF (fuel + 1) s (b :: inp) =
      parseLoopF fuel { s with lastDelimiter := b } inp := by
  simp only [parseLoopF, parseDelimiter, delimFromU8]
  rw [if_pos (by omega), if_neg h3, if_pos (by omega)]

theorem parseLoopF_eoa (s : PState) (inp : List Nat) (fuel : Nat) :
    parseLoopF (fuel + 1) s (3 :: inp) = some (.ok (addLastAttribute s)) := by
  simp [parseLoopF, parseDelimiter]

end IppSpec

namespace IppSpec

/-! ## Entry-level parsing of encoded values

`entryB c` is the wire form of one empty-name entry carrying `c` (the shape
the `ListOf` and `Collection` writers emit for every element after the
first); `vSteps c` is the number of parse-loop iterations it takes to
consume it. -/

/-- One empty-name entry: tag byte, zero name length, encoded value. -/
def entryB (c : IppValue) : List Nat := c.toTagB :: (w16 0 ++ (valWrite c).1)

mutual

/-- Parse-loop iterations needed to consume a value's entries. -/
def vSteps : IppValue → Nat
  | .ListOf l => kidsSteps l
  | .Collection l => 2 + kidsSteps l
  | _ => 1

def kidsSteps : List IppValue → Nat
  | [] => 0
  | x :: r => vSteps x + kidsSteps r

end

theorem collW_bytes (x : IppValue) (r : List IppValue) :
    (collW (x :: r)).1 = entryB x ++ (collW r).1 := by
  simp [collW, entryB, List.append_assoc]

/-- Consuming one encoded empty-name entry appends the value to the top
frame and hands the remaining fuel to the rest of the stream.  Proved by
strong induction on the value size together with `body_lemma` below. -/
theorem entry0_aux : ∀ (n : Nat) (c : IppValue), sizeOf c ≤ n →
    wfValue c = true → isList c = false →
    ∀ (fuel ld : Nat) (ln : Option (List Nat)) (A : IppAttributes)
      (F : List IppValue) (R : List (List IppValue)) (rest : List Nat),
    parseLoopF (vSteps c + fuel) ⟨ld, ln, F :: R, A⟩ (entryB c ++ rest) =
      parseLoopF fuel ⟨ld, ln, (F ++ [c]) :: R, A⟩ rest := by
  intro n
  induction n using Nat.strong_induction_on with
  | _ n ih =>
    intro c hsz hwf hl fuel ld ln A F R rest
    cases hcoll : isColl c with
    | false =>
      -- scalar entry: one loop iteration
      have hstep : vSteps c + fuel = fuel + 1 := by
        cases c <;> simp_all [vSteps, isColl, isList] <;> omega
      rw [hstep]
      have hbytes : entryB c ++ rest = c.toTagB :: (w16 0 ++ ((valWrite c).1 ++ rest)) := by
        simp [entryB, List.append_assoc]
      rw [hbytes]
      exact parseLoopF_value_ok (toTagB_ge c) (toTagB_le c) fuel
        (parseValue_scalar0 c hwf hl hcoll ld ln A F R rest)
    | true =>
      -- collection entry: begin marker, children, end marker
      obtain ⟨cs, rfl⟩ : ∃ cs, c = .Collection cs := by
        cases c <;> simp_all [isColl]
      have hkids : wfKids cs = true := by simpa [wfValue] using hwf
      have hsteps : vSteps (.Collection cs) + fuel = (kidsSteps cs + (fuel + 1)) + 1 := by
        simp [vSteps]; omega
      have hbytes : entryB (.Collection cs) ++ rest =
          0x34 :: (w16 0 ++ (w16 0 ++ ((collW cs).1 ++ ([0x37] ++ w32 0 ++ rest)))) := by
        simp [entryB, IppValue.toTagB, IppValue.toTag, tagByte, valWrite, List.append_assoc]
      rw [hsteps, hbytes]
      rw [parseLoopF_value_ok (by norm_num) (by norm_num) (kidsSteps cs + (fuel + 1))
        (parseValue_beg ld ln A (F :: R) ((collW cs).1 ++ ([0x37] ++ w32 0 ++ rest)))]
      -- children fold into the fresh frame
      have hbody : ∀ (cs' : List IppValue), (∀ x ∈ cs', sizeOf x < n) →
          wfKids cs' = true →
          ∀ (fuel : Nat) (G : List IppValue) (rest' : List Nat),
          parseLoopF (kidsSteps cs' + fuel) ⟨ld, ln, G :: (F :: R), A⟩
              ((collW cs').1 ++ rest') =
            parseLoopF fuel ⟨ld, ln, (G ++ cs') :: (F :: R), A⟩ rest' := by
        intro cs'
        induction cs' with
        | nil => intro _ _ fuel G rest'; simp [collW, kidsSteps]
        | cons x xs ihx =>
          intro hszs hwfk fuel G rest'
          have hx : wfValue x = true ∧ isList x = false ∧ wfKids xs = true := by
            simpa [wfKids, Bool.and_eq_true, and_assoc] using hwfk
          have hxsz : sizeOf x < n := hszs x (by simp)
          have hsteps' : kidsSteps (x :: xs) + fuel = vSteps x + (kidsSteps xs + fuel) := by
            simp [kidsSteps]; omega
          rw [hsteps', collW_bytes, List.append_assoc]
          rw [ih (sizeOf x) hxsz x le_rfl hx.1 hx.2.1 (kidsSteps xs + fuel) ld ln A G
            (F :: R) ((collW xs).1 ++ rest')]
          rw [ihx (fun y hy => hszs y (by simp [hy])) hx.2.2 fuel (G ++ [x]) rest']
          simp [List.append_assoc]
      have hszkids : ∀ x ∈ cs, sizeOf x < n := by
        intro x hx
        have h1 : sizeOf x < sizeOf cs := List.sizeOf_lt_of_mem hx
        have h2 : sizeOf (IppValue.Collection cs) ≤ n := hsz
        simp only [IppValue.Collection.sizeOf_spec] at h2
        omega
      rw [hbody cs hszkids hkids (fuel + 1) [] ([0x37] ++ w32 0 ++ rest)]
      -- end marker
      have hend : ([0x37] ++ w32 0 ++ rest : List Nat) = 0x37 :: (w32 0 ++ rest) := by
        simp
      rw [hend]
      simp only [List.nil_append]
      rw [parseLoopF_value_ok (by norm_num) (by norm_num) fuel
        (parseValue_end ld ln A cs F R rest)]

/-- `entry0_aux` without the size bookkeeping. -/
theorem entry0_lemma (c : IppValue) (hwf : wfValue c = true) (hl : isList c = false)
    (fuel ld : Nat) (ln : Option (List Nat)) (A : IppAttributes)
    (F : List IppValue) (R : List (List IppValue)) (rest : List Nat) :
    parseLoopF (vSteps c + fuel) ⟨ld, ln, F :: R, A⟩ (entryB c ++ rest) =
      parseLoopF fuel ⟨ld, ln, (F ++ [c]) :: R, A⟩ rest :=
  entry0_aux (sizeOf c) c le_rfl hwf hl fuel ld ln A F R rest

end IppSpec

namespace IppSpec

/-- Folding a collection body's entries into the top frame. -/
theorem body_lemma (cs : List IppValue) (hwfk : wfKids cs = true) :
    ∀ (fuel ld : Nat) (ln : Option (List Nat)) (A : IppAttributes)
      (G : List IppValue) (S : List (List IppValue)) (rest : List Nat),
    parseLoopF (kidsSteps cs + fuel) ⟨ld, ln, G :: S, A⟩ ((collW cs).1 ++ rest) =
      parseLoopF fuel ⟨ld, ln, (G ++ cs) :: S, A⟩ rest := by
  induction cs with
  | nil => intro fuel ld ln A G S rest; simp [collW, kidsSteps]
  | cons x xs ihx =>
    intro fuel ld ln A G S rest
    have hx : (wfValue x = true ∧ isList x = false) ∧ wfKids xs = true := by
      simpa [wfKids, Bool.and_eq_true] using hwfk
    have hsteps : kidsSteps (x :: xs) + fuel = vSteps x + (kidsSteps xs + fuel) := by
      simp [kidsSteps]; omega
    rw [hsteps, collW_bytes, List.append_assoc]
    rw [entry0_lemma x hx.1.1 hx.1.2 (kidsSteps xs + fuel) ld ln A G S
      ((collW xs).1 ++ rest)]
    rw [ihx hx.2 fuel ld ln A (G ++ [x]) S rest]
    simp [List.append_assoc]

/-- A named scalar entry on a state with no pending name: remembers the name
and appends the value to the top frame. -/
theorem parseValue_scalarN (c : IppValue) (hwf : wfValue c = true)
    (hl : isList c = false) (hc : isColl c = false)
    (name : List Nat) (hn1 : 0 < name.length) (hn2 : name.length < 65536)
    (ld : Nat) (A : IppAttributes) (F : List IppValue)
    (R : List (List IppValue)) (rest : List Nat) :
    parseValue c.toTagB ⟨ld, none, F :: R, A⟩
        (w16 name.length ++ (name ++ ((valWrite c).1 ++ rest))) =
      .ok (⟨ld, some name, (F ++ [c]) :: R, A⟩, rest) := by
  simp only [parseValue, readU16_w16_lt hn2, readN_exact,
    read_valWrite_scalar c hwf hl hc]
  simp [hn1, addLastAttribute, scalar_tag_ne34 c hl hc, tag_ne37 c hl]

/-- A named `BegCollection` entry on a state with no pending name. -/
theorem parseValue_begN (name : List Nat) (hn1 : 0 < name.length)
    (hn2 : name.length < 65536) (ld : Nat) (A : IppAttributes)
    (ctx : List (List IppValue)) (r : List Nat) :
    parseValue 0x34 ⟨ld, none, ctx, A⟩ (w16 name.length ++ (name ++ (w16 0 ++ r))) =
      .ok (⟨ld, some name, [] :: ctx, A⟩, r) := by
  simp only [parseValue, readU16_w16_lt hn2, readN_exact, read_beg]
  simp [hn1, addLastAttribute]

/-- Consuming one named entry from a clean (no pending name) state. -/
theorem nentry_lemma (c : IppValue) (hwf : wfValue c = true) (hl : isList c = false)
    (name : List Nat) (hn1 : 0 < name.length) (hn2 : name.length < 65536)
    (fuel ld : Nat) (A : IppAttributes) (F : List IppValue)
    (R : List (List IppValue)) (rest : List Nat) :
    parseLoopF (vSteps c + fuel) ⟨ld, none, F :: R, A⟩ ((attrW name c).1 ++ rest) =
      parseLoopF fuel ⟨ld, some name, (F ++ [c]) :: R, A⟩ rest := by
  cases hcoll : isColl c with
  | false =>
    have hstep : vSteps c + fuel = fuel + 1 := by
      cases c <;> simp_all [vSteps, isColl, isList] <;> omega
    rw [hstep]
    have hbytes : (attrW name c).1 ++ rest =
        c.toTagB :: (w16 name.length ++ (name ++ ((valWrite c).1 ++ rest))) := by
      simp [attrW, List.append_assoc]
    rw [hbytes]
    exact parseLoopF_value_ok (toTagB_ge c) (toTagB_le c) fuel
      (parseValue_scalarN c hwf hl hcoll name hn1 hn2 ld A F R rest)
  | true =>
    obtain ⟨cs, rfl⟩ : ∃ cs, c = .Collection cs := by
      cases c <;> simp_all [isColl]
    have hkids : wfKids cs = true := by simpa [wfValue] using hwf
    have hsteps : vSteps (.Collection cs) + fuel = (kidsSteps cs + (fuel + 1)) + 1 := by
      simp [vSteps]; omega
    have hbytes : (attrW name (.Collection cs)).1 ++ rest =
        0x34 :: (w16 name.length ++ (name ++ (w16 0 ++
          ((collW cs).1 ++ ([0x37] ++ w32 0 ++ rest))))) := by
      simp [attrW, IppValue.toTagB, IppValue.toTag, tagByte, valWrite, List.append_assoc]
    rw [hsteps, hbytes]
    rw [parseLoopF_value_ok (by norm_num) (by norm_num) (kidsSteps cs + (fuel + 1))
      (parseValue_begN name hn1 hn2 ld A (F :: R)
        ((collW cs).1 ++ ([0x37] ++ w32 0 ++ rest)))]
    rw [body_lemma cs hkids (fuel + 1) ld (some name) A [] (F :: R)
      ([0x37] ++ w32 0 ++ rest)]
    have hend : ([0x37] ++ w32 0 ++ rest : List Nat) = 0x37 :: (w32 0 ++ rest) := by simp
    rw [hend]
    simp only [List.nil_append]
    rw [parseLoopF_value_ok (by norm_num) (by norm_num) fuel
      (parseValue_end ld (some name) A cs F R rest)]

/-- The repeated-tag tail of a `ListOf` encoding: every element lands in the
top frame in order. -/
theorem listTail_lemma (tb : Nat) (xs : List IppValue) :
    wfElems tb xs = true → xs ≠ [] →
    ∀ (fuel ld : Nat) (ln : Option (List Nat)) (A : IppAttributes)
      (F : List IppValue) (R : List (List IppValue)) (rest : List Nat),
    parseLoopF (kidsSteps xs + fuel) ⟨ld, ln, F :: R, A⟩
        ((tb :: (w16 0 ++ (listOfW tb xs).1)) ++ rest) =
      parseLoopF fuel ⟨ld, ln, (F ++ xs) :: R, A⟩ rest := by
  induction xs with
  | nil => intro _ hne; exact absurd rfl hne
  | cons y ys ihy =>
    intro hwfe _ fuel ld ln A F R rest
    have hy : (((wfValue y = true ∧ isList y = false) ∧ y.toTagB = tb) ∧
        wfElems tb ys = true) := by
      simpa [wfElems, Bool.and_eq_true, decide_eq_true_eq] using hwfe
    cases ys with
    | nil =>
      have hb : (tb :: (w16 0 ++ (listOfW tb [y]).1)) ++ rest = entryB y ++ rest := by
        simp [listOfW, entryB, hy.1.2]
      have hsteps : kidsSteps [y] + fuel = vSteps y + fuel := by
        simp [kidsSteps]
      rw [hb, hsteps, entry0_lemma y hy.1.1.1 hy.1.1.2 fuel ld ln A F R rest]
    | cons z zs =>
      have hb : (tb :: (w16 0 ++ (listOfW tb (y :: z :: zs)).1)) ++ rest =
          entryB y ++ ((tb :: (w16 0 ++ (listOfW tb (z :: zs)).1)) ++ rest) := by
        simp [listOfW, entryB, hy.1.2, List.append_assoc]
      have hsteps : kidsSteps (y :: z :: zs) + fuel =
          vSteps y + (kidsSteps (z :: zs) + fuel) := by
        simp [kidsSteps]; omega
      rw [hb, hsteps, entry0_lemma y hy.1.1.1 hy.1.1.2 _ ld ln A F R _]
      rw [ihy hy.2 (by simp) fuel ld ln A (F ++ [y]) R rest]
      simp [List.append_assoc]

/-- The frame contents an attribute's wire entries accumulate: the elements
of a `ListOf`, or the single value itself. -/
def elemsOf : IppValue → List IppValue
  | .ListOf l => l
  | v => [v]

theorem listOrValue_elemsOf (v : IppValue) (hwf : wfValue v = true) :
    listOrValue (elemsOf v) = v := by
  cases v <;> simp [elemsOf, listOrValue]
  rename_i l
  match l, hwf with
  | x :: y :: rest, _ => simp [listOrValue]

/-- Consuming a whole encoded attribute (named first entry plus any
repeated-tag tail) from a clean state. -/
theorem attr_lemma (v : IppValue) (hwf : wfValue v = true)
    (name : List Nat) (hn1 : 0 < name.length) (hn2 : name.length < 65536)
    (fuel ld : Nat) (A : IppAttributes) (F : List IppValue)
    (R : List (List IppValue)) (rest : List Nat) :
    parseLoopF (vSteps v + fuel) ⟨ld, none, F :: R, A⟩ ((attrW name v).1 ++ rest) =
      parseLoopF fuel ⟨ld, some name, (F ++ elemsOf v) :: R, A⟩ rest := by
  cases hlist : isList v with
  | false =>
    have he : elemsOf v = [v] := by cases v <;> simp_all [elemsOf, isList]
    rw [he]
    exact nentry_lemma v hwf hlist name hn1 hn2 fuel ld A F R rest
  | true =>
    obtain ⟨l, rfl⟩ : ∃ l, v = .ListOf l := by
      cases v <;> simp_all [isList]
    match l, hwf with
    | x :: y :: zs, hwf =>
      have hwfe : wfElems x.toTagB (x :: y :: zs) = true := by
        simpa [wfValue] using hwf
      have hx : (((wfValue x = true ∧ isList x = false) ∧ x.toTagB = x.toTagB) ∧
          wfElems x.toTagB (y :: zs) = true) := by
        simpa [wfElems, Bool.and_eq_true, decide_eq_true_eq] using hwfe
      have htb : IppValue.toTagB (.ListOf (x :: y :: zs)) = x.toTagB := by
        simp [IppValue.toTagB, IppValue.toTag]
      have hbytes : (attrW name (.ListOf (x :: y :: zs))).1 ++ rest =
          (attrW name x).1 ++
            ((x.toTagB :: (w16 0 ++ (listOfW x.toTagB (y :: zs)).1)) ++ rest) := by
        simp [attrW, valWrite, htb, listOfW, List.append_assoc]
      have hsteps : vSteps (.ListOf (x :: y :: zs)) + fuel =
          vSteps x + (kidsSteps (y :: zs) + fuel) := by
        simp [vSteps, kidsSteps]; omega
      rw [hbytes, hsteps]
      rw [nentry_lemma x hx.1.1.1 hx.1.1.2 name hn1 hn2 (kidsSteps (y :: zs) + fuel)
        ld A F R _]
      rw [listTail_lemma x.toTagB (y :: zs) hx.2 (by simp) fuel ld (some name) A
        (F ++ [x]) R rest]
      simp [elemsOf, List.append_assoc]

end IppSpec

namespace IppSpec

/-- Fuel monotonicity: a result reached with some fuel is stable under more. -/
theorem parseLoopF_mono : ∀ (f f' : Nat), f ≤ f' → ∀ (s : PState) (inp : List Nat)
    (r : Except ParseError PState), parseLoopF f s inp = some r →
    parseLoopF f' s inp = some r := by
  intro f
  induction f with
  | zero => intro f' _ s inp r h; simp [parseLoopF] at h
  | succ f ihf =>
    intro f' hle s inp r h
    obtain ⟨g, rfl⟩ : ∃ g, f' = g + 1 := ⟨f' - 1, by omega⟩
    cases inp with
    | nil => simpa [parseLoopF] using h
    | cons b rest =>
      simp only [parseLoopF] at h ⊢
      by_cases h1 : 1 ≤ b ∧ b ≤ 5
      · rw [if_pos h1] at h ⊢
        cases hd : parseDelimiter b s with
        | ok p =>
          obtain ⟨flag, s'⟩ := p
          rw [hd] at h
          cases flag
          · exact ihf g (by omega) s' rest r h
          · exact h
        | error e => rw [hd] at h; exact h
      · rw [if_neg h1] at h ⊢
        by_cases h2 : 0x10 ≤ b ∧ b ≤ 0x4a
        · rw [if_pos h2] at h ⊢
          cases hv : parseValue b s rest with
          | ok p =>
            obtain ⟨s', rest'⟩ := p
            rw [hv] at h
            exact ihf g (by omega) s' rest' r h
          | error e => rw [hv] at h; exact h
        · rw [if_neg h2] at h ⊢; exact h

/-- Each consumed entry spans at least as many bytes as loop iterations. -/
theorem vSteps_le_aux : ∀ (n : Nat) (c : IppValue), sizeOf c ≤ n →
    vSteps c ≤ (valWrite c).1.length := by
  intro n
  induction n using Nat.strong_induction_on with
  | _ n ih =>
    intro c hsz
    cases c
    case ListOf l =>
      have hsub : ∀ x ∈ l, vSteps x ≤ (valWrite x).1.length := by
        intro x hx
        have h1 : sizeOf x < sizeOf l := List.sizeOf_lt_of_mem hx
        have h2 : sizeOf (IppValue.ListOf l) ≤ n := hsz
        simp only [IppValue.ListOf.sizeOf_spec] at h2
        exact ih (sizeOf x) (by omega) x le_rfl
      have hlist : ∀ (tb : Nat) (l' : List IppValue),
          (∀ x ∈ l', vSteps x ≤ (valWrite x).1.length) →
          kidsSteps l' ≤ (listOfW tb l').1.length := by
        intro tb l'
        induction l' with
        | nil => intro _; simp [kidsSteps, listOfW]
        | cons y ys ihy =>
          intro hall
          cases ys with
          | nil =>
            have := hall y (by simp)
            simpa [kidsSteps, listOfW] using this
          | cons z zs =>
            have h1 := hall y (by simp)
            have h2 := ihy (fun x hx => hall x (by simp [hx]))
            simp only [kidsSteps, listOfW] at h2 ⊢
            simp only [List.length_append, List.length_cons, w16, List.length_nil]
            omega
      simpa [vSteps, valWrite] using hlist (IppValue.toTagB (.ListOf l)) l hsub
    case Collection l =>
      have hsub : ∀ x ∈ l, vSteps x ≤ (valWrite x).1.length := by
        intro x hx
        have h1 : sizeOf x < sizeOf l := List.sizeOf_lt_of_mem hx
        have h2 : sizeOf (IppValue.Collection l) ≤ n := hsz
        simp only [IppValue.Collection.sizeOf_spec] at h2
        exact ih (sizeOf x) (by omega) x le_rfl
      have hcoll : ∀ (l' : List IppValue),
          (∀ x ∈ l', vSteps x ≤ (valWrite x).1.length) →
          kidsSteps l' ≤ (collW l').1.length := by
        intro l'
        induction l' with
        | nil => intro _; simp [kidsSteps, collW]
        | cons y ys ihy =>
          intro hall
          have h1 := hall y (by simp)
          have h2 := ihy (fun x hx => hall x (by simp [hx]))
          simp only [kidsSteps, collW] at h2 ⊢
          simp only [List.length_append, List.length_cons, w16, List.length_nil]
          omega
      have := hcoll l hsub
      simp only [vSteps, valWrite, List.length_append, List.length_cons, w16,
        w32, List.length_nil]
      omega
    all_goals simp [vSteps, valWrite, w16]

theorem vSteps_le (c : IppValue) : vSteps c ≤ (valWrite c).1.length :=
  vSteps_le_aux (sizeOf c) c le_rfl

/-- The wire message carrying one printer-attributes-group attribute:
version 1.1 header, printer group tag, the attribute, end-of-attributes. -/
def mkMsg (name : List Nat) (v : IppValue) : List Nat :=
  1 :: 1 :: 0 :: 0 :: 0 :: 0 :: 0 :: 0 :: 4 :: ((attrW name v).1 ++ [3])

/-- The attribute round trip: writing a wellformed value as a named
attribute and parsing the message back recovers exactly that value. -/
theorem parse_mkMsg (v : IppValue) (hwf : wfValue v = true)
    (name : List Nat) (hn1 : 0 < name.length) (hn2 : name.length < 65536) :
    parse (mkMsg name v) = .ok (⟨257, 0, 0⟩, ⟨[(4, [(name, v)])]⟩) := by
  have hexact : parseLoopF (vSteps v + 2) initPState (4 :: ((attrW name v).1 ++ [3])) =
      some (.ok ⟨4, some name, [[]], ⟨[(4, [(name, v)])]⟩⟩) := by
    have h1 : vSteps v + 2 = (vSteps v + 1) + 1 := by omega
    rw [h1, parseLoopF_delim_cont (by norm_num) (by norm_num) (by norm_num)]
    show parseLoopF (vSteps v + 1) ⟨4, none, [[]], ⟨[]⟩⟩ ((attrW name v).1 ++ [3]) = _
    rw [attr_lemma v hwf name hn1 hn2 1 4 ⟨[]⟩ [] [] [3]]
    show parseLoopF (0 + 1) _ (3 :: []) = _
    rw [parseLoopF_eoa]
    simp [addLastAttribute, listOrValue_elemsOf v hwf, IppAttributes.add, groupInsert]
  have hlen : (attrW name v).1.length = 3 + name.length + (valWrite v).1.length := by
    simp [attrW, w16]
    omega
  have hbody : parseLoopF ((4 :: ((attrW name v).1 ++ [3])).length + 1) initPState
      (4 :: ((attrW name v).1 ++ [3])) =
      some (.ok ⟨4, some name, [[]], ⟨[(4, [(name, v)])]⟩⟩) := by
    refine parseLoopF_mono (vSteps v + 2) _ ?_ _ _ _ hexact
    have hs := vSteps_le v
    simp only [List.length_cons, List.length_append]
    omega
  have hhdr : readHeader (mkMsg name v) =
      .ok (⟨257, 0, 0⟩, 4 :: ((attrW name v).1 ++ [3])) := by
    simp [mkMsg, readHeader, readU16, readU32]
  unfold parse
  simp only [hhdr, hbody]

end IppSpec

namespace IppSpec

/-! ## Serializer lemmas (C3/C9 support) -/

theorem lookup_updateAssoc_ne (l : List (Nat × List (List Nat × IppValue)))
    (k g : Nat) (hne : g ≠ k)
    (f : List (List Nat × IppValue) → List (List Nat × IppValue))
    (d : List (List Nat × IppValue)) :
    (updateAssoc l k f d).lookup g = l.lookup g := by
  induction l with
  | nil =>
    have hb : (g == k) = false := beq_eq_false_iff_ne.mpr hne
    simp [updateAssoc, List.lookup, hb]
  | cons p r ihr =>
    obtain ⟨k', x⟩ := p
    by_cases hk : k' = k
    · subst hk
      have hb : (g == k') = false := beq_eq_false_iff_ne.mpr hne
      simp [updateAssoc, List.lookup, hb]
    · simp [updateAssoc, hk, List.lookup, ihr]

theorem getGroup_add5 (st : IppAttributeList) (n : List Nat) (v : IppValue)
    (g : Nat) (hg : g ≠ 5) :
    (st.add 5 n v).getGroup g = st.getGroup g := by
  simp [IppAttributeList.add, IppAttributeList.getGroup, lookup_updateAssoc_ne _ _ _ hg]

theorem get_add5 (st : IppAttributeList) (n : List Nat) (v : IppValue)
    (g : Nat) (hg : g ≠ 5) (m : List Nat) :
    (st.add 5 n v).get g m = st.get g m := by
  simp [IppAttributeList.get, getGroup_add5 st n v g hg]

theorem writeHdrs_congr (st st' : IppAttributeList)
    (h : ∀ m, st'.get 1 m = st.get 1 m) :
    ∀ hs : List (List Nat), writeHdrs st' hs = writeHdrs st hs := by
  intro hs
  induction hs with
  | nil => rfl
  | cons x r ihr => simp [writeHdrs, h x, ihr]

theorem writeGroups_congr (st st' : IppAttributeList) :
    ∀ gs : List Nat, (∀ g ∈ gs, st'.getGroup g = st.getGroup g) →
    writeGroups st' gs = writeGroups st gs := by
  intro gs
  induction gs with
  | nil => intro _; rfl
  | cons g r ihr =>
    intro hall
    simp only [writeGroups, hall g (by simp), ihr (fun x hx => hall x (by simp [hx]))]

/-! ## A sequence of empty-name entries (C5 support) -/

/-- The wire bytes of a sequence of empty-name entries, one per value;
exactly the byte shape `collW` emits for collection children. -/
def entriesB : List IppValue → List Nat
  | [] => []
  | c :: r => entryB c ++ entriesB r

theorem entriesB_eq_collW (vs : List IppValue) : entriesB vs = (collW vs).1 := by
  induction vs with
  | nil => simp [entriesB, collW]
  | cons c r ihr => rw [entriesB, collW_bytes, ihr]

theorem kidsSteps_le (vs : List IppValue) : kidsSteps vs ≤ (collW vs).1.length := by
  induction vs with
  | nil => simp [kidsSteps, collW]
  | cons y ys ihy =>
    have := vSteps_le y
    simp only [kidsSteps, collW, List.length_cons, List.length_append, w16,
      List.length_nil]
    omega

/-- A message with one named entry followed by empty-name entries under the
printer group. -/
def mkMsgList (name : List Nat) (v : IppValue) (vs : List IppValue) : List Nat :=
  1 :: 1 :: 0 :: 0 :: 0 :: 0 :: 0 :: 0 :: 4 :: (((attrW name v).1 ++ entriesB vs) ++ [3])

/-- A named entry plus trailing empty-name entries parse to one attribute
holding `list_or_value` of all the decoded values in wire order. -/
theorem parse_mkMsgList (v : IppValue) (hv : wfValue v = true)
    (hlv : isList v = false) (vs : List IppValue) (hvs : wfKids vs = true)
    (name : List Nat) (hn1 : 0 < name.length) (hn2 : name.length < 65536) :
    parse (mkMsgList name v vs) =
      .ok (⟨257, 0, 0⟩, ⟨[(4, [(name, listOrValue (v :: vs))])]⟩) := by
  have hexact : parseLoopF ((vSteps v + kidsSteps vs) + 2) initPState
      (4 :: (((attrW name v).1 ++ entriesB vs) ++ [3])) =
      some (.ok ⟨4, some name, [[]], ⟨[(4, [(name, listOrValue (v :: vs))])]⟩⟩) := by
    have h1 : (vSteps v + kidsSteps vs) + 2 = (vSteps v + (kidsSteps vs + 1)) + 1 := by
      omega
    rw [h1, parseLoopF_delim_cont (by norm_num) (by norm_num) (by norm_num)]
    show parseLoopF (vSteps v + (kidsSteps vs + 1)) ⟨4, none, [[]], ⟨[]⟩⟩
      (((attrW name v).1 ++ entriesB vs) ++ [3]) = _
    rw [List.append_assoc]
    rw [nentry_lemma v hv hlv name hn1 hn2 (kidsSteps vs + 1) 4 ⟨[]⟩ [] []
      (entriesB vs ++ [3])]
    rw [entriesB_eq_collW]
    rw [body_lemma vs hvs 1 4 (some name) ⟨[]⟩ ([] ++ [v]) [] [3]]
    show parseLoopF (0 + 1) _ (3 :: []) = _
    rw [parseLoopF_eoa]
    simp [addLastAttribute, IppAttributes.add, groupInsert]
  have hbody : parseLoopF ((4 :: (((attrW name v).1 ++ entriesB vs) ++ [3])).length + 1)
      initPState (4 :: (((attrW name v).1 ++ entriesB vs) ++ [3])) =
      some (.ok ⟨4, some name, [[]], ⟨[(4, [(name, listOrValue (v :: vs))])]⟩⟩) := by
    refine parseLoopF_mono ((vSteps v + kidsSteps vs) + 2) _ ?_ _ _ _ hexact
    have hs := vSteps_le v
    have hk := kidsSteps_le vs
    have hlen : (attrW name v).1.length = 3 + name.length + (valWrite v).1.length := by
      simp [attrW, w16]
      omega
    rw [entriesB_eq_collW]
    simp only [List.length_cons, List.length_append]
    omega
  have hhdr : readHeader (mkMsgList name v vs) =
      .ok (⟨257, 0, 0⟩, 4 :: (((attrW name v).1 ++ entriesB vs) ++ [3])) := by
    simp [mkMsgList, readHeader, readU16, readU32]
  unfold parse
  simp only [hhdr, hbody]

/-! ## Every successful parse ends at an end-of-attributes flush (C8 support) -/

theorem loop_ok_shape : ∀ (f : Nat) (s : PState) (inp : List Nat)
    (r : PState), parseLoopF f s inp = some (.ok r) →
    ∃ s', r = addLastAttribute s' := by
  intro f
  induction f with
  | zero => intro s inp r h; simp [parseLoopF] at h
  | succ f ihf =>
    intro s inp r h
    cases inp with
    | nil => simp [parseLoopF] at h
    | cons b rest =>
      by_cases h3 : b = 3
      · subst h3
        rw [parseLoopF_eoa] at h
        simp only [Option.some.injEq, Except.ok.injEq] at h
        exact ⟨s, h.symm⟩
      simp only [parseLoopF] at h
      by_cases h1 : 1 ≤ b ∧ b ≤ 5
      · rw [if_pos h1] at h
        have hd : b = 1 ∨ b = 2 ∨ b = 3 ∨ b = 4 ∨ b = 5 := by omega
        simp only [parseDelimiter, if_neg h3, delimFromU8, if_pos hd] at h
        exact ihf _ rest r h
      · rw [if_neg h1] at h
        by_cases h2 : 0x10 ≤ b ∧ b ≤ 0x4a
        · rw [if_pos h2] at h
          cases hv : parseValue b s rest with
          | ok p =>
            obtain ⟨s', rest'⟩ := p
            rw [hv] at h
            exact ihf s' rest' r h
          | error e => rw [hv] at h; cases h
        · rw [if_neg h2] at h; cases h

end IppSpec

namespace IppSpec

/-- The value decode of a Beg/EndCollection marker entry whose payload is on
the stream: the declared payload comes back inside an `Other` value. -/
theorem read_marker (t : Nat) (ht : t = 0x34 ∨ t = 0x37) (payload : List Nat)
    (hk : payload.length < 65536) (r : List Nat) :
    IppValue.read t (w16 payload.length ++ (payload ++ r)) =
      some (.Other t payload, r) := by
  rcases ht with rfl | rfl <;>
    simp [IppValue.read, readU16_w16_lt hk, fromU8, readN_exact]

/-- C2: the byte count returned by `IppValue::write` equals the bytes
actually written for every variant except `Resolution`, whose arm writes the
2-byte length field plus 9 payload bytes (11 in total) but returns `Ok(9)`.
This theorem exhibits the divergence on every `Resolution` value. -/
theorem c2_resolution_count_bug (cf f u : Int) :
    (valWrite (.Resolution cf f u)).1.length = 11 ∧
    (valWrite (.Resolution cf f u)).2 = 9 := by
  constructor
  · simp [valWrite, w16, wi32, w32, wi8]
  · simp [valWrite]

/-- C6: a tag byte that `ValueTag::from_u8` does not recognise decodes to
`Other {tag, data}` with exactly the `vsize` bytes the 2-byte length field
declares; the only failure possible for such a tag is an i/o error (`none`):
a short length field or fewer than `vsize` available bytes. -/
theorem c6_unknown_tag_reads_other (t : Nat) (hunk : fromU8 t = none)
    (inp : List Nat) :
    (∀ vsize r, readU16 inp = some (vsize, r) →
      (vsize ≤ r.length →
        IppValue.read t inp = some (.Other t (r.take vsize), r.drop vsize)) ∧
      (r.length < vsize → IppValue.read t inp = none)) ∧
    (readU16 inp = none → IppValue.read t inp = none) := by
  constructor
  · intro vsize r hr
    constructor
    · intro hle
      simp [IppValue.read, hr, hunk, readN, hle]
    · intro hlt
      have hn : ¬ vsize ≤ r.length := by omega
      simp [IppValue.read, hr, hunk, readN, hn]
  · intro hn
    simp [IppValue.read, hn]

/-- Witness for C6 at the unassigned tag byte 0x11. -/
theorem c6_witness :
    fromU8 0x11 = none ∧
    IppValue.read 0x11 [0, 2, 9, 9, 7] = some (.Other 0x11 [9, 9], [7]) := by
  refine ⟨rfl, ?_⟩
  have h := ((c6_unknown_tag_reads_other 0x11 rfl [0, 2, 9, 9, 7]).1 2 [9, 9, 7]
    rfl).1 (by norm_num)
  simpa using h

/-- C7: a Beg/EndCollection entry with a declared zero-length payload is
accepted by `parse_value`, and one with a non-empty payload fails with
`InvalidCollection`. -/
theorem c7_collection_marker_payload (t : Nat) (ht : t = 0x34 ∨ t = 0x37)
    (s : PState) (name payload rest : List Nat) (hn : name.length < 65536) :
    (∃ s', parseValue t s (w16 name.length ++ (name ++ (w16 0 ++ rest))) =
      .ok (s', rest)) ∧
    (payload ≠ [] → payload.length < 65536 →
      parseValue t s
          (w16 name.length ++ (name ++ (w16 payload.length ++ (payload ++ rest)))) =
        .error .InvalidCollection) := by
  obtain ⟨ld, ln, ctx, A⟩ := s
  constructor
  · rcases ht with rfl | rfl
    · simp only [parseValue, readU16_w16_lt hn, readN_exact, read_beg]
      by_cases hnl : 0 < name.length <;> simp [hnl]
    · simp only [parseValue, readU16_w16_lt hn, readN_exact, read_end]
      by_cases hnl : 0 < name.length <;>
        rcases ln with _ | nm <;>
          rcases ctx with _ | ⟨arr, _ | ⟨top, rest2⟩⟩ <;>
            simp [hnl, addLastAttribute]
  · intro hpne hplen
    obtain ⟨p0, ps, rfl⟩ := List.exists_cons_of_ne_nil hpne
    rcases ht with rfl | rfl
    · have hm := read_marker 52 (Or.inl rfl) (p0 :: ps) hplen rest
      simp only [List.cons_append] at hm
      simp only [parseValue, readU16_w16_lt hn, readN_exact, List.cons_append, hm]
      rfl
    · have hm := read_marker 55 (Or.inr rfl) (p0 :: ps) hplen rest
      simp only [List.cons_append] at hm
      simp only [parseValue, readU16_w16_lt hn, readN_exact, List.cons_append, hm]
      rfl

/-- Witness for C7: an empty-payload BegCollection entry is accepted and a
one-byte-payload BegCollection entry is `InvalidCollection`. -/
theorem c7_witness :
    (∃ s', parseValue 0x34 initPState (w16 0 ++ ([] ++ (w16 0 ++ []))) =
      .ok (s', [])) ∧
    parseValue 0x34 initPState (w16 0 ++ ([] ++ (w16 1 ++ ([1] ++ [])))) =
      .error .InvalidCollection := by
  have h := c7_collection_marker_payload 0x34 (Or.inl rfl) initPState [] [1] []
    (by norm_num)
  exact ⟨h.1, by
    have h2 := h.2 (by simp) (by norm_num)
    simpa using h2⟩

/-- C8: the parse loop fails with `InvalidTag b` on any tag byte outside the
delimiter range 0x01–0x05 and the value range 0x10–0x4a, fails with an i/o
error when the stream ends at a tag position, and returns `Ok` only through
the end-of-attributes branch, i.e. every successfully parsed attribute store
is the store of a state that has had its pending attribute flushed. -/
theorem c8_terminal_conditions :
    (∀ (b fuel : Nat) (s : PState) (rest : List Nat),
      ¬(1 ≤ b ∧ b ≤ 5) → ¬(0x10 ≤ b ∧ b ≤ 0x4a) →
      parseLoopF (fuel + 1) s (b :: rest) = some (.error (.InvalidTag b))) ∧
    (∀ (fuel : Nat) (s : PState), parseLoopF (fuel + 1) s [] =
      some (.error .IOError)) ∧
    (∀ (inp : List Nat) (hdr : IppHeader) (attrs : IppAttributes),
      parse inp = .ok (hdr, attrs) → ∃ s', attrs = (addLastAttribute s').attributes) := by
  refine ⟨?_, ?_, ?_⟩
  · intro b fuel s rest h1 h2
    simp only [parseLoopF]
    rw [if_neg h1, if_neg h2]
  · intro fuel s
    rfl
  · intro inp hdr attrs hp
    unfold parse at hp
    cases hh : readHeader inp with
    | error e => rw [hh] at hp; cases hp
    | ok p =>
      obtain ⟨hdr', body⟩ := p
      simp only [hh] at hp
      cases hl : parseLoopF (body.length + 1) initPState body with
      | none => simp only [hl] at hp; exact Except.noConfusion hp
      | some r =>
        cases r with
        | error e => simp only [hl] at hp; exact Except.noConfusion hp
        | ok st =>
          simp only [hl, Except.ok.injEq, Prod.mk.injEq] at hp
          obtain ⟨s', hs'⟩ := loop_ok_shape _ _ _ _ hl
          exact ⟨s', by rw [← hp.2, hs']⟩

/-- Witness for C8: `InvalidTag 8` on the out-of-range byte 0x08, an i/o
error on an empty stream, and a successful parse producing a flushed store. -/
theorem c8_witness :
    parseLoopF 1 initPState [8] = some (.error (.InvalidTag 8)) ∧
    parseLoopF 1 initPState [] = some (.error .IOError) ∧
    ∃ s', (⟨[]⟩ : IppAttributes) = (addLastAttribute s').attributes :=
  ⟨c8_terminal_conditions.1 8 0 initPState [] (by omega) (by omega),
   c8_terminal_conditions.2.1 0 initPState,
   c8_terminal_conditions.2.2 [1, 1, 0, 0, 0, 0, 0, 0, 3] ⟨257, 0, 0⟩ ⟨[]⟩ rfl⟩

end IppSpec

namespace IppSpec

theorem readN_of_le {k : Nat} {s : List Nat} (h : k ≤ s.length) :
    readN k s = some (s.take k, s.drop k) := by
  simp [readN, h]

theorem take_append_left_of_le {k : Nat} {a b : List Nat} (h : k ≤ a.length) :
    (a ++ b).take k = a.take k := by
  simp [List.take_append_eq_append_take, Nat.sub_eq_zero_of_le h]

/-- C10: a string-carrying or `Other` value whose payload is at least 2^16
bytes long is written with its 2-byte length field reduced modulo 2^16 while
the whole payload still goes out, and the resulting bytes no longer decode
back to the original value. -/
theorem c10_oversized_payload_truncates :
    (∀ mk ∈ ([IppValue.OctetString, IppValue.TextWithoutLanguage,
        IppValue.NameWithoutLanguage, IppValue.Charset, IppValue.NaturalLanguage,
        IppValue.Uri, IppValue.Keyword, IppValue.MimeMediaType,
        IppValue.MemberAttrName] : List (List Nat → IppValue)),
      ∀ s : List Nat, 65536 ≤ s.length →
        (valWrite (mk s)).1 = w16 s.length ++ s ∧
        s.length % 65536 ≠ s.length ∧
        ∀ out, IppValue.read (mk s).toTagB ((valWrite (mk s)).1 ++ out) ≠
          some (mk s, out)) ∧
    (∀ (t : Nat) (s : List Nat), 65536 ≤ s.length →
      (valWrite (.Other t s)).1 = w16 s.length ++ s ∧
      s.length % 65536 ≠ s.length ∧
      ∀ out, IppValue.read (IppValue.Other t s).toTagB
          ((valWrite (.Other t s)).1 ++ out) ≠ some (.Other t s, out)) := by
  have hmod : ∀ s : List Nat, 65536 ≤ s.length → s.length % 65536 < s.length := by
    intro s hs
    have := Nat.mod_lt s.length (show 0 < 65536 by norm_num)
    omega
  constructor
  · intro mk hmk s hs
    fin_cases hmk <;>
      (refine ⟨rfl, by have := hmod s hs; omega, ?_⟩
       intro out heq
       have hm := hmod s hs
       have hle : s.length % 65536 ≤ (s ++ out).length := by
         simp only [List.length_append]
         omega
       simp [valWrite, IppValue.toTagB, IppValue.toTag, tagByte,
         List.append_assoc, IppValue.read, readU16_w16, fromU8,
         readN_of_le hle, take_append_left_of_le (le_of_lt hm)] at heq
       obtain ⟨h1, -⟩ := heq
       omega)
  · intro t s hs
    refine ⟨rfl, by have := hmod s hs; omega, ?_⟩
    intro out heq
    have hm := hmod s hs
    have hle : s.length % 65536 ≤ (s ++ out).length := by
      simp only [List.length_append]
      omega
    simp [valWrite, IppValue.toTagB, IppValue.toTag, tagByte,
      List.append_assoc, IppValue.read, readU16_w16, fromU8,
      readN_of_le hle, take_append_left_of_le (le_of_lt hm)] at heq
    have h1 := heq.1.2
    omega

/-- Witness for C10 at a 65536-byte keyword payload. -/
theorem c10_witness :
    (65536 ≤ (List.replicate 65536 0).length) ∧
    (valWrite (.Keyword (List.replicate 65536 0))).1 =
      w16 (List.replicate 65536 0).length ++ List.replicate 65536 0 ∧
    (List.replicate 65536 0).length % 65536 ≠ (List.replicate 65536 0).length := by
  have hlen : 65536 ≤ (List.replicate 65536 (0 : Nat)).length := by
    rw [List.length_replicate]
  have hmem : (IppValue.Keyword : List Nat → IppValue) ∈
      ([IppValue.OctetString, IppValue.TextWithoutLanguage,
        IppValue.NameWithoutLanguage, IppValue.Charset, IppValue.NaturalLanguage,
        IppValue.Uri, IppValue.Keyword, IppValue.MimeMediaType,
        IppValue.MemberAttrName] : List (List Nat → IppValue)) := by
    apply List.mem_cons_of_mem
    apply List.mem_cons_of_mem
    apply List.mem_cons_of_mem
    apply List.mem_cons_of_mem
    apply List.mem_cons_of_mem
    apply List.mem_cons_of_mem
    exact List.mem_cons_self _ _
  have h := c10_oversized_payload_truncates.1 IppValue.Keyword hmem
    (List.replicate 65536 0) hlen
  exact ⟨hlen, h.1, h.2.1⟩

/-- C3 counterexample: a store holding only job-attributes fails with
`RequestError` but one byte — the operation-attributes group tag 0x01 — has
already been written, so the claim's "writes nothing" is false. -/
theorem c3_counterexample :
    (IppAttributeList.write ⟨[(2, [([106], .Integer 1)])]⟩) =
      ([1], .error .RequestError) ∧
    (IppAttributeList.write ⟨[(2, [([106], .Integer 1)])]⟩).1 ≠ [] :=
  ⟨rfl, by decide⟩

/-- C3 (amended): a store missing one of the three mandated operation header
attributes fails serialization with `RequestError`, but only after the
operation-attributes group tag byte 0x01 has reached the writer: the output
starts with that byte, and no group or non-header attribute bytes follow. -/
theorem c3_missing_header_fails_after_group_tag (st : IppAttributeList)
    (h : st.get 1 hdrCharset = none ∨ st.get 1 hdrNaturalLanguage = none ∨
      st.get 1 hdrPrinterUri = none) :
    (st.write).2 = .error .RequestError ∧ (st.write).1.head? = some 1 := by
  unfold IppAttributeList.write
  cases hc : st.get 1 hdrCharset with
  | none => simp [writeHdrs, hdrAttrs, hc]
  | some v1 =>
    cases hnl : st.get 1 hdrNaturalLanguage with
    | none => simp [writeHdrs, hdrAttrs, hc, hnl]
    | some v2 =>
      cases hu : st.get 1 hdrPrinterUri with
      | none => simp [writeHdrs, hdrAttrs, hc, hnl, hu]
      | some v3 => rcases h with h | h | h <;> simp_all

/-- Witness for C3 (amended) at the job-attributes-only store. -/
theorem c3_witness :
    ((⟨[(2, [([106], .Integer 1)])]⟩ : IppAttributeList).get 1 hdrCharset = none) ∧
    ((⟨[(2, [([106], .Integer 1)])]⟩ : IppAttributeList).write).2 =
      .error .RequestError ∧
    ((⟨[(2, [([106], .Integer 1)])]⟩ : IppAttributeList).write).1.head? = some 1 :=
  ⟨rfl,
   (c3_missing_header_fails_after_group_tag ⟨[(2, [([106], .Integer 1)])]⟩
     (Or.inl rfl)).1,
   (c3_missing_header_fails_after_group_tag ⟨[(2, [([106], .Integer 1)])]⟩
     (Or.inl rfl)).2⟩

/-- C9: the serializer never emits the unsupported-attributes group —
attributes added under delimiter 5 leave the output (bytes and result)
unchanged, because `write` only visits the operation (1), job (2) and
printer (4) groups. -/
theorem c9_unsupported_group_never_written (st : IppAttributeList)
    (n : List Nat) (v : IppValue) :
    (st.add 5 n v).write = st.write := by
  unfold IppAttributeList.write
  rw [writeHdrs_congr st (st.add 5 n v) (fun m => get_add5 st n v 1 (by norm_num) m)]
  rw [writeGroups_congr st (st.add 5 n v) [1, 2, 4]
    (fun g hg => getGroup_add5 st n v g (by
      simp only [List.mem_cons, List.not_mem_nil, or_false] at hg
      rcases hg with rfl | rfl | rfl <;> norm_num))]

/-- C1 counterexample: a singleton `ListOf` does not round-trip — the parser
collapses the one-element frame back to the bare scalar. -/
theorem c1_counterexample :
    parse (mkMsg [116] (.ListOf [.Integer 1])) =
      .ok (⟨257, 0, 0⟩, ⟨[(4, [([116], .Integer 1)])]⟩) ∧
    (IppValue.Integer 1 ≠ .ListOf [.Integer 1]) :=
  ⟨rfl, by simp⟩

/-- C1 (amended): for every wellformed value — integer fields within their
machine ranges, payloads under 2^16 bytes, a `ListOf` with at least two
elements all of the first element's tag and none itself a list, `Collection`
children that are not lists, `Other` carrying the `Unknown` tag 0x12 the
encoder emits for it — writing it as a named printer-group attribute and
parsing the message back yields exactly the original value. -/
theorem c1_roundtrip (v : IppValue) (hwf : wfValue v = true)
    (name : List Nat) (hn1 : 0 < name.length) (hn2 : name.length < 65536) :
    parse (mkMsg name v) = .ok (⟨257, 0, 0⟩, ⟨[(4, [(name, v)])]⟩) :=
  parse_mkMsg v hwf name hn1 hn2

/-- Witness for C1: the Collection of the two test integers encodes to the
byte-exact test vector and round-trips to the identical two-element
Collection. -/
theorem c1_witness :
    (attrW [99, 111, 108, 108]
        (.Collection [.Integer 0x11111111, .Integer 0x22222222])).1 =
      [0x34, 0, 4, 99, 111, 108, 108, 0, 0, 0x21, 0, 0, 0, 4, 0x11, 0x11, 0x11,
       0x11, 0x21, 0, 0, 0, 4, 0x22, 0x22, 0x22, 0x22, 0x37, 0, 0, 0, 0] ∧
    wfValue (.Collection [.Integer 0x11111111, .Integer 0x22222222]) = true ∧
    parse (mkMsg [99, 111, 108, 108]
        (.Collection [.Integer 0x11111111, .Integer 0x22222222])) =
      .ok (⟨257, 0, 0⟩, ⟨[(4, [([99, 111, 108, 108],
        .Collection [.Integer 0x11111111, .Integer 0x22222222])])]⟩) :=
  ⟨rfl, rfl,
   c1_roundtrip (.Collection [.Integer 0x11111111, .Integer 0x22222222]) rfl
     [99, 111, 108, 108] (by decide) (by decide)⟩

/-- C4 counterexample: a stream with an `EndCollection` that has no matching
`BegCollection` parses successfully (the popped frame is silently dropped)
instead of returning an error. -/
theorem c4_counterexample :
    parse [1, 1, 0, 0, 0, 0, 0, 0, 4, 0x37, 0, 0, 0, 0, 3] =
      .ok (⟨257, 0, 0⟩, ⟨[]⟩) ∧
    ∀ e, parse [1, 1, 0, 0, 0, 0, 0, 0, 4, 0x37, 0, 0, 0, 0, 3] ≠ .error e :=
  ⟨rfl, fun _ h => Except.noConfusion
    ((rfl : parse [1, 1, 0, 0, 0, 0, 0, 0, 4, 0x37, 0, 0, 0, 0, 3] =
      .ok (⟨257, 0, 0⟩, ⟨[]⟩)).symm.trans h)⟩

/-- C4 (amended): balanced, arbitrarily nested Beg/EndCollection pairs
reconstruct the corresponding nested `Collection` values, but an unbalanced
pair is not a parse error: an unmatched `EndCollection` silently discards
the accumulated values, and an unclosed `BegCollection` is flushed at
end-of-attributes as if it had been closed. -/
theorem c4_nesting_behavior :
    (∀ (cs : List IppValue), wfKids cs = true →
      ∀ (name : List Nat), 0 < name.length → name.length < 65536 →
      parse (mkMsg name (.Collection cs)) =
        .ok (⟨257, 0, 0⟩, ⟨[(4, [(name, .Collection cs)])]⟩)) ∧
    parse [1, 1, 0, 0, 0, 0, 0, 0, 4, 0x37, 0, 0, 0, 0, 3] =
      .ok (⟨257, 0, 0⟩, ⟨[]⟩) ∧
    parse [1, 1, 0, 0, 0, 0, 0, 0, 4, 0x34, 0, 1, 97, 0, 0, 3] =
      .ok (⟨257, 0, 0⟩, ⟨[(4, [([97], .ListOf [])])]⟩) :=
  ⟨fun cs hcs name h1 h2 =>
    parse_mkMsg (.Collection cs) (by simpa [wfValue] using hcs) name h1 h2,
   rfl, rfl⟩

/-- Witness for C4 at a nested two-level collection. -/
theorem c4_witness :
    wfKids [IppValue.Collection [.Integer 5]] = true ∧
    parse (mkMsg [110] (.Collection [.Collection [.Integer 5]])) =
      .ok (⟨257, 0, 0⟩, ⟨[(4, [([110],
        .Collection [.Collection [.Integer 5]])])]⟩) :=
  ⟨rfl, c4_nesting_behavior.1 [.Collection [.Integer 5]] rfl [110]
    (by decide) (by decide)⟩

/-- C5: an empty-name entry never starts a new attribute and never flushes
the pending one (the store and the pending name are untouched), and a named
entry followed by zero or more empty-name entries parses to a single
attribute: the bare scalar for one value, a `ListOf` in original wire order
for several. -/
theorem c5_scalar_and_list_parsing :
    (∀ (t : Nat) (s : PState) (inp : List Nat) (s' : PState) (out : List Nat),
      parseValue t s (0 :: 0 :: inp) = .ok (s', out) →
      s'.lastName = s.lastName ∧ s'.attributes = s.attributes) ∧
    (∀ (v : IppValue), wfValue v = true → isList v = false →
     ∀ (vs : List IppValue), wfKids vs = true →
     ∀ (name : List Nat), 0 < name.length → name.length < 65536 →
      parse (mkMsgList name v vs) =
        .ok (⟨257, 0, 0⟩, ⟨[(4, [(name, listOrValue (v :: vs))])]⟩)) := by
  constructor
  · intro t s inp s' out h
    simp only [parseValue, readU16, Nat.zero_mul, Nat.add_zero, readN_zero] at h
    cases hr : IppValue.read t inp with
    | none => rw [hr] at h; exact Except.noConfusion h
    | some p =>
      obtain ⟨value, r3⟩ := p
      rw [hr] at h
      rw [if_neg (Nat.lt_irrefl 0)] at h
      repeat' split at h
      all_goals
        first
          | exact Except.noConfusion h
          | (simp only [Except.ok.injEq, Prod.mk.injEq] at h
             obtain ⟨h1, h2⟩ := h
             rw [← h1]
             exact ⟨rfl, rfl⟩)
  · intro v hv hlv vs hvs name h1 h2
    exact parse_mkMsgList v hv hlv vs hvs name h1 h2

/-- Witness for C5: two same-named integer entries parse to the two-element
`ListOf` in wire order. -/
theorem c5_witness :
    parse (mkMsgList [116] (.Integer 7) [.Integer 9]) =
      .ok (⟨257, 0, 0⟩, ⟨[(4, [([116], .ListOf [.Integer 7, .Integer 9])])]⟩) := by
  have h := c5_scalar_and_list_parsing.2 (.Integer 7) (by decide) rfl
    [.Integer 9] (by decide) [116] (by decide) (by decide)
  simpa [listOrValue] using h

end IppSpec
